import Mathlib

/-!
# Verification of the nchain core (blockchain engine)

Shallow embedding of the core components of the `nchain` repository:
the Ed25519 signing layer (`src/crypto.rs`), transactions
(`src/transaction.rs`), blocks (`src/block.rs`), the proof-of-history
recorder (`src/poh.rs`), the chain (`src/blockchain.rs`) and the miner
(`src/mining.rs`), together with theorems settling the specification's
claims about them.

Modelling conventions:
* `f64` amounts are embedded as exact rationals (`ℚ`); the balance and
  difficulty arithmetic of the source is replayed exactly.
* SHA-256 is embedded as an ideal (collision-free) hash: a free
  constructor of the inductive type `HVal` of hash values.  The block
  content hash is the constructor applied to every serialized field
  (with the `hash` field blanked, exactly as `Block::calculate_hash`
  blanks it), and a proof-of-history tick is the constructor
  `HVal.pohHash` applied to the previous hash, the data and the
  iteration count, mirroring the chained SHA-256 of `PohRecorder`.
* Ed25519 is embedded as an ideal signature scheme: a signature is a
  record of the signing key and the signed message, and verification
  checks both, mirroring correctness and unforgeability of Ed25519.
* `Utc::now()` and `Uuid::new_v4()` are ambient effects; the embedding
  passes the produced timestamp / id as an explicit argument.
-/

set_option autoImplicit false

namespace NChain

/-! ## Signing layer (src/crypto.rs), idealized -/

/-- A 32-byte Ed25519 verification key, identified abstractly. -/
structure PublicKey where
  keyId : String
deriving DecidableEq, Repr

/-- A 64-byte Ed25519 signature.  Idealized: it records which key
produced it and over which message, and nothing else is a valid
signature (EUF-CMA idealization of `ed25519_dalek`). -/
structure DigitalSignature where
  signer : PublicKey
  message : String
deriving DecidableEq, Repr

/-- An Ed25519 key pair.  The private scalar is abstracted away; the
invariant that the public key is its public counterpart is what the
ideal signing model below uses. -/
structure KeyPair where
  public_key : PublicKey
deriving DecidableEq, Repr

/-- `KeyPair::sign`: deterministic Ed25519 signing of a message. -/
def KeyPair.sign (kp : KeyPair) (msg : String) : DigitalSignature :=
  { signer := kp.public_key, message := msg }

/-- `PublicKey::verify`: returns true iff the signature is a valid
Ed25519 signature of `msg` under this key (never raises). -/
def PublicKey.verify (pk : PublicKey) (msg : String) (sig : DigitalSignature) : Bool :=
  sig.signer == pk && sig.message == msg

/-- `PublicKey::to_address`: hex encoding of the first 8 of the 32 key
bytes — always a non-empty string, and deliberately lossy.  Modelled as
a non-empty truncation of the abstract key identity. -/
def PublicKey.to_address (pk : PublicKey) : String :=
  "ad" ++ pk.keyId.take 14

/-- A named wallet around a key pair (`src/crypto.rs`). -/
structure Wallet where
  keypair : KeyPair
  name : String
deriving DecidableEq, Repr

/-- `Wallet::address`. -/
def Wallet.address (w : Wallet) : String :=
  w.keypair.public_key.to_address

/-- `Wallet::sign_transaction`. -/
def Wallet.sign_transaction (w : Wallet) (transaction_data : String) : DigitalSignature :=
  w.keypair.sign transaction_data

/-! ## Transactions (src/transaction.rs) -/

/-- A value-transfer record.  `amount: f64` is embedded as `ℚ`,
`timestamp: DateTime<Utc>` as an integer (seconds). -/
structure Transaction where
  id : String
  «from» : String
  «to» : String
  amount : ℚ
  data : Option String
  timestamp : ℤ
  signature : Option DigitalSignature
  from_public_key : Option PublicKey
deriving DecidableEq, Repr

/-- Errors of the core (`src/errors.rs`), restricted to the variants the
embedded operations produce. -/
inductive BlockchainError where
  | invalidTransaction (message : String)
  | invalidBlock (message : String)
  | chainValidation (message : String)
  | emptyBlockchain
deriving DecidableEq, Repr

/-- Decidable equality of `Except` results, for the concrete-input
evaluations below. -/
instance {ε α : Type} [DecidableEq ε] [DecidableEq α] : DecidableEq (Except ε α) := fun a b =>
  match a, b with
  | .ok x, .ok y =>
    if h : x = y then isTrue (by rw [h]) else isFalse fun hh => h (by cases hh; rfl)
  | .error x, .error y =>
    if h : x = y then isTrue (by rw [h]) else isFalse fun hh => h (by cases hh; rfl)
  | .ok _, .error _ => isFalse fun hh => Except.noConfusion hh
  | .error _, .ok _ => isFalse fun hh => Except.noConfusion hh

/-- `str::trim` of Rust, embedded structurally on the character list
(drop Unicode whitespace from both ends) so that concrete inputs
evaluate by kernel reduction. -/
def strTrim (s : String) : String :=
  ⟨((s.data.dropWhile Char.isWhitespace).reverse.dropWhile Char.isWhitespace).reverse⟩

namespace Transaction

/-- `Transaction::new` (the fresh id and timestamp are passed in,
modelling `Uuid::new_v4()` / `Utc::now()`). -/
def new (id : String) (now : ℤ) («from» «to» : String) (amount : ℚ) (data : Option String) :
    Except BlockchainError Transaction :=
  if strTrim «from» = "" then
    .error (.invalidTransaction "From address cannot be empty")
  else if strTrim «to» = "" then
    .error (.invalidTransaction "To address cannot be empty")
  else if amount < 0 then
    .error (.invalidTransaction "Amount cannot be negative")
  else
    .ok { id := id, «from» := «from», «to» := «to», amount := amount, data := data,
          timestamp := now, signature := none, from_public_key := none }

/-- `Transaction::new_signed`. -/
def new_signed (id : String) (now : ℤ) («from» «to» : String) (amount : ℚ)
    (data : Option String) (signature : DigitalSignature) (from_public_key : PublicKey) :
    Except BlockchainError Transaction :=
  (new id now «from» «to» amount data).map fun t =>
    { t with signature := some signature, from_public_key := some from_public_key }

/-- `Transaction::genesis_transaction`. -/
def genesis_transaction (now : ℤ) : Transaction :=
  { id := "genesis", «from» := "genesis", «to» := "genesis", amount := 0,
    data := some "Genesis transaction", timestamp := now,
    signature := none, from_public_key := none }

/-- Rendering of an optional string field in the canonical encodings. -/
def optStr : Option String → String
  | none => "null"
  | some s => s

/-- `Transaction::signable_data`: the canonical fixed-field serialization
of (id, from, to, amount, data, timestamp) — signature and public key
excluded.  The JSON encoding of `SignableTransaction` is modelled by a
field-tagged concatenation that is distinct from any raw payload such as
"coinbase". -/
def signable_data (t : Transaction) : String :=
  "sgn|id=" ++ t.id ++ "|from=" ++ t.«from» ++ "|to=" ++ t.«to» ++
    "|amount=" ++ toString t.amount.num ++ "/" ++ toString t.amount.den ++
    "|data=" ++ optStr t.data ++ "|ts=" ++ toString t.timestamp

/-- `Transaction::verify_signature`: when both a signature and a public
key are present the signature is verified over the signable bytes and
that result is returned; only otherwise does the `from ∈ {genesis,
miner}` fallback apply. -/
def verify_signature (t : Transaction) : Bool :=
  match t.signature, t.from_public_key with
  | some signature, some public_key => public_key.verify t.signable_data signature
  | _, _ => t.«from» == "genesis" || t.«from» == "miner"

/-- Rendering of an optional signature in the full serialization. -/
def optSig : Option DigitalSignature → String
  | none => "null"
  | some s => "sig(" ++ s.signer.keyId ++ ";" ++ s.message ++ ")"

/-- Rendering of an optional public key in the full serialization. -/
def optKey : Option PublicKey → String
  | none => "null"
  | some k => "key(" ++ k.keyId ++ ")"

/-- `Transaction::serialize`: `serde_json::to_string` of the whole
transaction, modelled as a field-tagged concatenation of all eight
fields. -/
def serialize (t : Transaction) : String :=
  "tx|id=" ++ t.id ++ "|from=" ++ t.«from» ++ "|to=" ++ t.«to» ++
    "|amount=" ++ toString t.amount.num ++ "/" ++ toString t.amount.den ++
    "|data=" ++ optStr t.data ++ "|ts=" ++ toString t.timestamp ++
    "|sig=" ++ optSig t.signature ++ "|pk=" ++ optKey t.from_public_key

/-- `Transaction::is_coinbase`. -/
def is_coinbase (t : Transaction) : Bool :=
  t.«from» == "miner"

end Transaction

/-! ## Hash values

Every hash-typed string of the program (`hash`, `previous_hash`,
`poh_hash`, the PoH recorder's `current_hash`) is embedded as a value of
the inductive type `HVal`.  SHA-256 is idealized as collision-free, so
each distinct way the program produces a hash string is a distinct
constructor:

* `HVal.str s`: a literal string stored in a hash field (`String::new()`
  giving `""`, the 64-zero genesis `previous_hash`, the PoH genesis
  seed).
* `HVal.blockHash …`: `Block::calculate_hash`, i.e. the SHA-256 hex
  digest of the canonical serialization of the block with the `hash`
  field blanked to `""`.  The constructor takes the eight serialized
  fields that vary (the blanked `hash` field is constant and omitted);
  the serialization being canonical and SHA-256 being ideal, the digest
  is a free function of exactly these fields.
* `HVal.pohHash prev data iters`: the digest computed by both
  `PohRecorder::record` and `PohRecorder::verify_sequence`:
  `SHA256^iters(SHA256(prev ‖ data))` as a free function of the
  previous hash, the data and the iteration count. -/

inductive HVal where
  | str : String → HVal
  | blockHash : (index : Nat) → (timestamp : ℤ) → (transactions : List Transaction) →
      (previous_hash : HVal) → (poh_hash : HVal) → (nonce : Nat) →
      (difficulty : Nat) → (miner : Option String) → HVal
  | pohHash : (prev : HVal) → (data : String) → (iters : Nat) → HVal
deriving DecidableEq, Repr

/-! ## Blocks (src/block.rs) -/

/-- An ordered batch of transactions plus chain linkage and PoW
metadata.  `index: u64`, `nonce: u64` and `difficulty: u32` are embedded
as `Nat` (no operation of the embedded code paths can overflow them),
`timestamp` as an integer. -/
structure Block where
  index : Nat
  timestamp : ℤ
  transactions : List Transaction
  previous_hash : HVal
  hash : HVal
  poh_hash : HVal
  nonce : Nat
  difficulty : Nat
  miner : Option String
deriving DecidableEq, Repr

namespace Block

/-- `Block::calculate_hash`: SHA-256 of the canonical serialization of
the block with the `hash` field blanked (see `HVal.blockHash`). -/
def calculate_hash (b : Block) : HVal :=
  HVal.blockHash b.index b.timestamp b.transactions b.previous_hash
    b.poh_hash b.nonce b.difficulty b.miner

/-- `Block::new` (timestamp passed in, modelling `Utc::now()`): nonce 0,
difficulty 4, `miner` from the first coinbase transaction, hash computed
at construction. -/
def new (index : Nat) (transactions : List Transaction)
    (previous_hash poh_hash : HVal) (now : ℤ) : Block :=
  let miner := (transactions.find? fun tx => tx.is_coinbase).map fun tx => tx.«to»
  let b : Block :=
    { index := index, timestamp := now, transactions := transactions,
      previous_hash := previous_hash, hash := HVal.str "",
      poh_hash := poh_hash, nonce := 0, difficulty := 4, miner := miner }
  { b with hash := b.calculate_hash }

/-- `Block::with_difficulty`: as `Block::new` but with an explicit
difficulty. -/
def with_difficulty (index : Nat) (transactions : List Transaction)
    (previous_hash poh_hash : HVal) (difficulty : Nat) (now : ℤ) : Block :=
  let miner := (transactions.find? fun tx => tx.is_coinbase).map fun tx => tx.«to»
  let b : Block :=
    { index := index, timestamp := now, transactions := transactions,
      previous_hash := previous_hash, hash := HVal.str "",
      poh_hash := poh_hash, nonce := 0, difficulty := difficulty, miner := miner }
  { b with hash := b.calculate_hash }

/-- `Block::genesis`: index 0, previous hash of 64 `'0'` characters, the
synthetic genesis transaction, difficulty 1. -/
def genesis (now : ℤ) : Block :=
  let b : Block :=
    { index := 0, timestamp := now,
      transactions := [Transaction.genesis_transaction now],
      previous_hash := HVal.str (String.mk (List.replicate 64 '0')),
      hash := HVal.str "", poh_hash := HVal.str "",
      nonce := 0, difficulty := 1, miner := none }
  { b with hash := b.calculate_hash }

/-- `Block::is_valid`: fails with `InvalidBlock` when the recomputed
content hash differs from the stored one, the transaction list is empty,
or some transaction has an empty (after trimming) address. -/
def is_valid (b : Block) : Except BlockchainError Unit :=
  if b.hash ≠ b.calculate_hash then
    .error (.invalidBlock "Block hash is invalid")
  else if b.transactions.isEmpty then
    .error (.invalidBlock "Block must contain at least one transaction")
  else if b.transactions.any (fun tx => strTrim tx.«from» == "" || strTrim tx.«to» == "") then
    .error (.invalidBlock "Transaction contains empty addresses")
  else
    .ok ()

/-- `Block::transaction_data`: the transactions' full serializations
joined with `","`; fed to the PoH clock. -/
def transaction_data (b : Block) : String :=
  String.intercalate "," (b.transactions.map Transaction.serialize)

end Block

/-! ## Proof-of-history recorder (src/poh.rs) -/

/-- The sequential hash clock. -/
structure PohRecorder where
  current_hash : HVal
  iterations : Nat
  tick_count : Nat
deriving DecidableEq, Repr

namespace PohRecorder

/-- `PohRecorder::DEFAULT_ITERATIONS`. -/
def DEFAULT_ITERATIONS : Nat := 1000

/-- `PohRecorder::GENESIS_SEED`. -/
def GENESIS_SEED : String := "poh-genesis-seed-solana-inspired"

/-- `PohRecorder::with_iterations`. -/
def with_iterations (iterations : Nat) : PohRecorder :=
  { current_hash := HVal.str GENESIS_SEED, iterations := iterations, tick_count := 0 }

/-- `PohRecorder::new`. -/
def new : PohRecorder :=
  with_iterations DEFAULT_ITERATIONS

/-- `PohRecorder::record`: chained SHA-256 of (current_hash, data),
iterated `iterations` times; stores the digest as the new current hash,
bumps the tick count and returns the digest.  The `&mut self` mutation
is embedded by returning the digest together with the updated clock. -/
def record (c : PohRecorder) (data : String) : HVal × PohRecorder :=
  let final_hash := HVal.pohHash c.current_hash data c.iterations
  (final_hash, { c with current_hash := final_hash, tick_count := c.tick_count + 1 })

/-- `PohRecorder::verify_sequence`: recomputes the chained hash from an
arbitrary previous hash with this clock's iteration count and compares
with the expected digest. -/
def verify_sequence (c : PohRecorder) (previous_hash : HVal) (data : String)
    (expected_hash : HVal) : Bool :=
  HVal.pohHash previous_hash data c.iterations == expected_hash

end PohRecorder

/-! ## The chain (src/blockchain.rs) -/

/-- The ledger: the block sequence and the clock it owns. -/
structure Blockchain where
  chain : List Block
  poh_recorder : PohRecorder
deriving DecidableEq, Repr

namespace Blockchain

/-- `Blockchain::new` (timestamp passed in): fresh clock, genesis block
whose `poh_hash` is the recording of its transaction data and whose hash
is then recomputed. -/
def new (now : ℤ) : Blockchain :=
  let poh_recorder := PohRecorder.new
  let genesis_block := Block.genesis now
  let transaction_data := genesis_block.transaction_data
  let rp := poh_recorder.record transaction_data
  let genesis_block := { genesis_block with poh_hash := rp.1 }
  let genesis_block := { genesis_block with hash := genesis_block.calculate_hash }
  { chain := [genesis_block], poh_recorder := rp.2 }

/-- `Blockchain::get_latest_block`. -/
def get_latest_block (bc : Blockchain) : Except BlockchainError Block :=
  match bc.chain.getLast? with
  | none => .error .emptyBlockchain
  | some b => .ok b

/-- The serialized transaction batch fed to the clock by
`Blockchain::add_block` (`serialize` of each transaction, joined
with `","`). -/
def batch_data (transactions : List Transaction) : String :=
  String.intercalate "," (transactions.map Transaction.serialize)

/-- `Blockchain::add_block` (timestamp passed in).  The `&mut self`
receiver is embedded by returning the outcome together with the final
state: the source records the batch into the clock *before* validating
the candidate block, so on a validation failure the returned state keeps
the advanced clock while the block sequence is unchanged. -/
def add_block (bc : Blockchain) (now : ℤ) (transactions : List Transaction) :
    Except BlockchainError Unit × Blockchain :=
  if transactions.isEmpty then
    (.error (.invalidBlock "Cannot create block with no transactions"), bc)
  else
    match bc.chain.getLast? with
    | none => (.error .emptyBlockchain, bc)
    | some previous_block =>
      let transaction_data := batch_data transactions
      let rp := bc.poh_recorder.record transaction_data
      let bc1 : Blockchain := { bc with poh_recorder := rp.2 }
      let new_block := Block.new (previous_block.index + 1) transactions
        previous_block.hash rp.1 now
      match new_block.is_valid with
      | .error e => (.error e, bc1)
      | .ok _ => (.ok (), { bc1 with chain := bc1.chain ++ [new_block] })

/-- The body of `Blockchain::is_chain_valid`'s loop for one block at
position `i > 0`: individual validity, previous-hash linkage and index
contiguity against the preceding block. -/
def link_check (previous_block block : Block) : Except BlockchainError Unit :=
  match block.is_valid with
  | .error e => .error e
  | .ok _ =>
    if block.previous_hash ≠ previous_block.hash then
      .error (.chainValidation "invalid previous hash")
    else if block.index ≠ previous_block.index + 1 then
      .error (.chainValidation "invalid index")
    else
      .ok ()

/-- The loop of `Blockchain::is_chain_valid` from the second block on,
carrying the preceding block (the `?` operator is an explicit match). -/
def chain_walk : Block → List Block → Except BlockchainError Unit
  | _, [] => .ok ()
  | previous_block, block :: rest =>
    match link_check previous_block block with
    | .error e => .error e
    | .ok _ => chain_walk block rest

/-- `Blockchain::is_chain_valid`: empty chains are rejected; the first
block is validated individually; every later block is validated and
checked for linkage against its predecessor. -/
def is_chain_valid (bc : Blockchain) : Except BlockchainError Unit :=
  match bc.chain with
  | [] => .error (.chainValidation "Blockchain is empty")
  | first :: rest =>
    match first.is_valid with
    | .error e => .error e
    | .ok _ => chain_walk first rest

/-- `Blockchain::get_balance`: replays every transaction in chain order,
crediting `amount` to `to` and debiting it from `from` unless `from` is
`"genesis"`. -/
def get_balance (bc : Blockchain) (address : String) : ℚ :=
  bc.chain.foldl (fun balance block =>
    block.transactions.foldl (fun balance transaction =>
      let balance :=
        if transaction.«to» == address then balance + transaction.amount else balance
      if transaction.«from» == address && transaction.«from» != "genesis" then
        balance - transaction.amount
      else balance) balance) 0

/-- `Blockchain::poh_tick_count`. -/
def poh_tick_count (bc : Blockchain) : Nat :=
  bc.poh_recorder.tick_count

end Blockchain

/-! ## The miner (src/mining.rs)

Durations (`max_block_time`, elapsed times) are embedded as natural
numbers in one fixed unit; `target_block_time` is embedded in whole
seconds, matching the `num_seconds` arithmetic of the difficulty
adjustment.  Two ambient effects of the mining loop are taken as
parameters:

* `hexRender : HVal → String` is the lowercase hexadecimal rendering of
  a 32-byte digest (`format!("\x7b:x\x7d", hasher.finalize())`) — the one
  aspect of SHA-256 the ideal-hash embedding cannot compute, so the
  theorems quantify over it;
* `elapsed : Nat → Nat` gives the value of `start_time.elapsed()`
  observed while the loop is at a given nonce (a monotone wall clock is
  a special case; the theorems assume of it only what they state).

The unbounded `loop` is embedded with explicit fuel: `none` means the
fuel ran out with the source loop still running, `some r` that the
source call returned `r`. -/

/-- Mining parameters (`MiningConfig`). -/
structure MiningConfig where
  difficulty : Nat
  block_reward : ℚ
  max_block_time : Nat
  difficulty_adjustment_interval : Nat
  target_block_time : Nat
deriving DecidableEq, Repr

/-- `MiningConfig::default`: difficulty 4, reward 50, 10-minute cap,
adjustment every 10 blocks, one-minute target (the two durations in
seconds). -/
def MiningConfig.default : MiningConfig :=
  { difficulty := 4, block_reward := 50, max_block_time := 600,
    difficulty_adjustment_interval := 10, target_block_time := 60 }

/-- Outcome of a successful mining attempt (`MiningResult`). -/
structure MiningResult where
  block : Block
  mining_time : Nat
  hash_rate : Nat
  nonce : Nat
deriving DecidableEq, Repr

/-- The miner: its configuration and reward wallet. -/
structure Miner where
  config : MiningConfig
  wallet : Wallet
deriving DecidableEq, Repr

namespace Miner

/-- `Miner::calculate_target`: `difficulty` many `'0'` characters. -/
def calculate_target (difficulty : Nat) : String :=
  String.mk (List.replicate difficulty '0')

/-- `str::starts_with`, embedded structurally on the character lists so
that concrete inputs evaluate by kernel reduction. -/
def strStartsWith (s pre : String) : Bool :=
  pre.data.isPrefixOf s.data

/-- `Miner::hash_meets_difficulty`: the rendered hash starts with the
target prefix. -/
def hash_meets_difficulty (hexRender : HVal → String) (hash : HVal) (target : String) : Bool :=
  strStartsWith (hexRender hash) target

/-- The `loop` of `Miner::mine_block`, with explicit fuel.  Each
iteration sets the block's nonce, recomputes the content hash, returns
success when the hash meets the target, and otherwise increments the
nonce and fails with the timeout error once the elapsed time exceeds
`max_block_time`.  Note the order: the nonce-0 hash is tested before the
first timeout check. -/
def mineLoop (hexRender : HVal → String) (target : String) (max_block_time : Nat)
    (elapsed : Nat → Nat) (b : Block) :
    Nat → Nat → Option (Except BlockchainError MiningResult)
  | 0, _ => none
  | fuel + 1, nonce =>
    let b' : Block := { b with nonce := nonce }
    let hash := b'.calculate_hash
    if hash_meets_difficulty hexRender hash target then
      let mining_time := elapsed nonce
      let hash_rate := if mining_time > 0 then nonce / mining_time else nonce
      some (.ok { block := { b' with hash := hash }, mining_time := mining_time,
                  hash_rate := hash_rate, nonce := nonce })
    else if elapsed nonce > max_block_time then
      some (.error (.invalidBlock "Mining timeout exceeded"))
    else
      mineLoop hexRender target max_block_time elapsed b fuel (nonce + 1)

/-- `Miner::mine_block` (fresh transaction id and timestamp passed in):
prepends the coinbase transaction — from `"miner"` to the wallet's
address, the configured reward, signed by the miner's key over the
placeholder payload `"coinbase"` — builds the candidate block with
`Block::new`, and runs the nonce search against the target derived from
the *configured* difficulty. -/
def mine_block (hexRender : HVal → String) (elapsed : Nat → Nat) (m : Miner)
    (fuel : Nat) (txId : String) (now : ℤ) (index : Nat)
    (transactions : List Transaction) (previous_hash poh_hash : HVal) :
    Option (Except BlockchainError MiningResult) :=
  match Transaction.new_signed txId now "miner" m.wallet.address m.config.block_reward
      (some "Block reward") (m.wallet.sign_transaction "coinbase")
      m.wallet.keypair.public_key with
  | .error e => some (.error e)
  | .ok coinbase_transaction =>
    let block_transactions := coinbase_transaction :: transactions
    let block := Block.new index block_transactions previous_hash poh_hash now
    mineLoop hexRender (calculate_target m.config.difficulty) m.config.max_block_time
      elapsed block fuel 0

/-- `Miner::calculate_difficulty_adjustment`.  Timestamp differences and
the expected window are exact integer second counts; the `f64` ratio of
the source is embedded as the exact rational, whose comparisons with 0.5
and 2.0 agree with the IEEE-754 ones for these integer operands whenever
the expected window is positive (a zero `target_block_time` would give
an IEEE infinity or NaN, outside the rational model, so the theorems
about the ratio branch assume a positive target). -/
def calculate_difficulty_adjustment (m : Miner) (blocks : List Block)
    (current_difficulty : Nat) : Nat :=
  let interval := m.config.difficulty_adjustment_interval
  if blocks.length < interval then current_difficulty
  else
    let recent_blocks := blocks.drop (blocks.length - interval)
    match recent_blocks with
    | [] => current_difficulty
    | b :: rest =>
      if rest.isEmpty then current_difficulty
      else
        let start_time := b.timestamp
        let end_time := ((b :: rest).getLast (List.cons_ne_nil b rest)).timestamp
        let time_taken : ℤ := end_time - start_time
        let expected_seconds : ℤ := (m.config.target_block_time * interval : Nat)
        let ratio : ℚ := (time_taken : ℚ) / (expected_seconds : ℚ)
        if ratio < 1/2 then current_difficulty + 1
        else if ratio > 2 then
          if current_difficulty > 1 then current_difficulty - 1 else 1
        else current_difficulty

end Miner

/-! ## Claims -/

/-- A plain unsigned transaction used as a concrete input. -/
def exTx : Transaction :=
  { id := "t1", «from» := "genesis", «to» := "alice", amount := 100, data := none,
    timestamp := 0, signature := none, from_public_key := none }

/-- A concrete block built by the ordinary construction path. -/
def exBlock : Block :=
  Block.new 1 [exTx] (HVal.str "p") (HVal.str "q") 0

/-- C6: for every clock state (any current hash, any iteration count)
and any input data, `verify_sequence(prev, data, record(data))` holds on
the same clock instance immediately after `record`: the updated clock
keeps the iteration count, so the recomputed chained hash coincides with
the digest `record` returned. -/
theorem poh_record_verify_sequence (c : PohRecorder) (data : String) :
    ((c.record data).2).verify_sequence c.current_hash data (c.record data).1 = true := by
  simp [PohRecorder.record, PohRecorder.verify_sequence]

/-- C7: `Block::is_valid` returns an `InvalidBlock` error exactly when
the recomputed content hash differs from the stored hash, or the
transaction list is empty, or some transaction has an empty (after
trimming) address; and incrementing the nonce of a previously valid
block without recomputing its hash makes `is_valid` fail. -/
theorem block_is_valid_characterization (b : Block) :
    ((∃ msg, b.is_valid = .error (.invalidBlock msg)) ↔
      (b.calculate_hash ≠ b.hash ∨ b.transactions = [] ∨
        ∃ tx ∈ b.transactions, strTrim tx.«from» = "" ∨ strTrim tx.«to» = "")) ∧
    (b.is_valid = .ok () →
      Block.is_valid { b with nonce := b.nonce + 1 } ≠ .ok ()) := by
  constructor
  · unfold Block.is_valid
    split_ifs with h1 h2 h3
    · exact iff_of_true ⟨"Block hash is invalid", rfl⟩ (Or.inl (Ne.symm h1))
    · exact iff_of_true ⟨"Block must contain at least one transaction", rfl⟩
        (Or.inr (Or.inl (List.isEmpty_iff.mp h2)))
    · refine iff_of_true ⟨"Transaction contains empty addresses", rfl⟩ ?_
      rcases List.any_eq_true.mp h3 with ⟨tx, htx, hp⟩
      exact Or.inr (Or.inr ⟨tx, htx, by simpa using hp⟩)
    · constructor
      · rintro ⟨msg, hmsg⟩
        exact absurd hmsg (by simp)
      · rintro (h | h | ⟨tx, htx, hp⟩)
        · exact absurd (Ne.symm h) h1
        · exact absurd (by simp [h]) h2
        · refine absurd (List.any_eq_true.mpr ⟨tx, htx, ?_⟩) h3
          rcases hp with h | h <;> simp [h]
  · intro hok
    have hhash : b.hash = b.calculate_hash := by
      by_contra hne
      unfold Block.is_valid at hok
      rw [if_pos hne] at hok
      exact Except.noConfusion hok
    have hne : Block.hash { b with nonce := b.nonce + 1 } ≠
        Block.calculate_hash { b with nonce := b.nonce + 1 } := by
      show b.hash ≠ _
      rw [hhash]
      simp only [Block.calculate_hash, ne_eq, HVal.blockHash.injEq]
      intro h
      omega
    unfold Block.is_valid
    rw [if_pos hne]
    exact fun h => Except.noConfusion h

/-- Witness for C7: a concrete freshly constructed block is valid, and
incrementing its nonce without recomputing the hash breaks validity. -/
theorem block_is_valid_characterization_witness :
    exBlock.is_valid = .ok () ∧
      Block.is_valid { exBlock with nonce := exBlock.nonce + 1 } ≠ .ok () :=
  ⟨by decide, (block_is_valid_characterization exBlock).2 (by decide)⟩

/-- A concrete miner wallet. -/
def exWallet : Wallet :=
  { keypair := { public_key := { keyId := "minerkey" } }, name := "miner" }

/-- The coinbase transaction exactly as `Miner::mine_block` builds it
for `exWallet`: from `"miner"` to the wallet address, signed over the
placeholder payload `"coinbase"`, carrying the miner's public key. -/
def exCoinbase : Transaction :=
  { id := "cb1", «from» := "miner", «to» := exWallet.address, amount := 50,
    data := some "Block reward", timestamp := 0,
    signature := some (exWallet.sign_transaction "coinbase"),
    from_public_key := some exWallet.keypair.public_key }

/-- Counterexample to C1: the miner-built coinbase transaction (`from =
"miner"`, with a signature over the placeholder payload and a public
key) does NOT verify: the presence of signature and key routes
verification through the signable bytes, which differ from the
placeholder, so `verify_signature` returns false rather than the
unconditional true the claim states for `from = "miner"`. -/
theorem verify_signature_coinbase_false :
    Transaction.new_signed "cb1" 0 "miner" exWallet.address 50 (some "Block reward")
      (exWallet.sign_transaction "coinbase") exWallet.keypair.public_key
      = .ok exCoinbase ∧
    exCoinbase.«from» = "miner" ∧
    exCoinbase.verify_signature = false := by
  refine ⟨by decide, rfl, by decide⟩

/-- The canonical signable encoding always carries at least its fixed
field tags, so it is never the 8-character placeholder `"coinbase"`. -/
theorem signable_data_ne_coinbase (t : Transaction) : t.signable_data ≠ "coinbase" := by
  intro h
  have hlen := congrArg String.length h
  have e1 : "sgn|id=".length = 7 := rfl
  have e2 : "|from=".length = 6 := rfl
  have e3 : "|to=".length = 4 := rfl
  have e4 : "|amount=".length = 8 := rfl
  have e5 : "/".length = 1 := rfl
  have e6 : "|data=".length = 6 := rfl
  have e7 : "|ts=".length = 4 := rfl
  have e8 : "coinbase".length = 8 := rfl
  simp only [Transaction.signable_data, String.length_append, e1, e2, e3, e4, e5, e6, e7,
    e8] at hlen
  omega

/-- C1 (amended): when both a signature and a public key are present,
`verify_signature` returns exactly the verification of that signature
over the canonical signable bytes, regardless of the sender — so the
miner-built coinbase transaction, whose signature is over the
placeholder payload `"coinbase"`, fails it; the unconditional-true
fallback for `from ∈ {"genesis","miner"}` applies only when the
signature or the public key is absent. -/
theorem verify_signature_characterization :
    (∀ (t : Transaction) (sig : DigitalSignature) (pk : PublicKey),
        t.signature = some sig → t.from_public_key = some pk →
        t.verify_signature = pk.verify t.signable_data sig) ∧
    (∀ t : Transaction, t.signature = none ∨ t.from_public_key = none →
        (t.verify_signature = true ↔ (t.«from» = "genesis" ∨ t.«from» = "miner"))) ∧
    (∀ (w : Wallet) (id : String) (now : ℤ) (amount : ℚ) (d : Option String)
        (t : Transaction),
        Transaction.new_signed id now "miner" w.address amount d
          (w.sign_transaction "coinbase") w.keypair.public_key = .ok t →
        t.verify_signature = false) := by
  refine ⟨?_, ?_, ?_⟩
  · intro t sig pk hsig hpk
    unfold Transaction.verify_signature
    rw [hsig, hpk]
  · intro t h
    rcases h with h | h <;>
      cases hs : t.signature <;> cases hp : t.from_public_key <;>
        simp_all [Transaction.verify_signature]
  · intro w id now amount d t h
    unfold Transaction.new_signed at h
    cases hn : Transaction.new id now "miner" w.address amount d with
    | error e => rw [hn] at h; exact Except.noConfusion h
    | ok t0 =>
      rw [hn] at h
      simp only [Except.map] at h
      cases h
      unfold Transaction.verify_signature
      simp only [Transaction.signable_data]
      have hne : Transaction.signable_data
          { t0 with signature := some (w.sign_transaction "coinbase"),
                    from_public_key := some w.keypair.public_key } ≠ "coinbase" :=
        signable_data_ne_coinbase _
      simp [PublicKey.verify, Wallet.sign_transaction, KeyPair.sign,
        Transaction.signable_data, beq_iff_eq] at hne ⊢
      intro h
      exact absurd h.symm hne

/-- Witness for C1's amended characterization: applied to the concrete
coinbase transaction of `exWallet`. -/
theorem verify_signature_characterization_witness :
    Transaction.new_signed "cb1" 0 "miner" exWallet.address 50 (some "Block reward")
      (exWallet.sign_transaction "coinbase") exWallet.keypair.public_key
      = .ok exCoinbase ∧
    exCoinbase.verify_signature = false :=
  ⟨by decide,
    verify_signature_characterization.2.2 exWallet "cb1" 0 50 (some "Block reward")
      exCoinbase (by decide)⟩

/-- A transaction whose `from` address is empty after trimming. -/
def badTx : Transaction :=
  { id := "bad", «from» := "", «to» := "bob", amount := 1, data := none,
    timestamp := 2, signature := none, from_public_key := none }

/-- Counterexample to C3: appending a batch whose transaction has an
empty `from` address makes `add_block` fail block validation, yet the
returned state is NOT the original: the clock was advanced before
validation, so `tick_count` grew by one. -/
theorem add_block_error_mutates_clock :
    ((Blockchain.new 0).add_block 2 [badTx]).1 =
      .error (.invalidBlock "Transaction contains empty addresses") ∧
    ((Blockchain.new 0).add_block 2 [badTx]).2.poh_tick_count
      = (Blockchain.new 0).poh_tick_count + 1 ∧
    ((Blockchain.new 0).add_block 2 [badTx]).2 ≠ Blockchain.new 0 := by
  refine ⟨by decide, by decide, by decide⟩

/-- C3 (amended): when `add_block` returns an error the block sequence
is always unchanged; the whole state (clock included) is unchanged
exactly on the early rejections (empty batch, empty chain), while on a
validation failure of the constructed block the clock has already been
advanced by recording the batch: one extra tick and a new current
hash. -/
theorem add_block_error_state (bc : Blockchain) (now : ℤ) (txs : List Transaction)
    (herr : (bc.add_block now txs).1 ≠ .ok ()) :
    (bc.add_block now txs).2.chain = bc.chain ∧
    ((txs.isEmpty = true ∨ bc.chain.getLast? = none) → (bc.add_block now txs).2 = bc) ∧
    (txs.isEmpty = false → bc.chain.getLast? ≠ none →
      (bc.add_block now txs).2.poh_recorder
        = (bc.poh_recorder.record (Blockchain.batch_data txs)).2 ∧
      (bc.add_block now txs).2.poh_tick_count = bc.poh_tick_count + 1) := by
  cases h1 : txs.isEmpty with
  | true => simp [Blockchain.add_block, h1]
  | false =>
    cases h2 : bc.chain.getLast? with
    | none => simp [Blockchain.add_block, h1, h2]
    | some previous_block =>
      cases h3 : (Block.new (previous_block.index + 1) txs previous_block.hash
          (bc.poh_recorder.record (Blockchain.batch_data txs)).1 now).is_valid with
      | ok u =>
        simp only [Blockchain.add_block, h1, h2] at herr
        rw [h3] at herr
        simp at herr
      | error e =>
        simp only [Blockchain.add_block, h1, h2]
        rw [h3]
        simp [Blockchain.poh_tick_count, PohRecorder.record, h1, h2]

/-- Witness for C3's amended state law: the concrete failing append
leaves the chain alone but advances the clock by one tick. -/
theorem add_block_error_state_witness :
    (((Blockchain.new 0).add_block 2 [badTx]).1 ≠ .ok ()) ∧
    ((Blockchain.new 0).add_block 2 [badTx]).2.poh_tick_count
      = (Blockchain.new 0).poh_tick_count + 1 :=
  ⟨by decide,
    ((add_block_error_state (Blockchain.new 0) 2 [badTx] (by decide)).2.2
      (by decide) (by decide)).2⟩

/-- A freshly constructed block stores its own content hash. -/
theorem Block.new_hash_eq (index : Nat) (txs : List Transaction) (ph poh : HVal)
    (now : ℤ) : (Block.new index txs ph poh now).hash
      = (Block.new index txs ph poh now).calculate_hash := rfl

/-- `Block::new` keeps the transaction batch. -/
theorem Block.new_transactions (index : Nat) (txs : List Transaction) (ph poh : HVal)
    (now : ℤ) : (Block.new index txs ph poh now).transactions = txs := rfl

/-- `Block::new` stores the given index. -/
theorem Block.new_index (index : Nat) (txs : List Transaction) (ph poh : HVal)
    (now : ℤ) : (Block.new index txs ph poh now).index = index := rfl

/-- `Block::new` stores the given previous hash. -/
theorem Block.new_previous_hash (index : Nat) (txs : List Transaction) (ph poh : HVal)
    (now : ℤ) : (Block.new index txs ph poh now).previous_hash = ph := rfl

/-- A block built by `Block::new` from a non-empty batch with non-empty
trimmed addresses passes `is_valid`. -/
theorem Block.is_valid_new (index : Nat) (txs : List Transaction) (ph poh : HVal)
    (now : ℤ) (h1 : txs ≠ [])
    (h2 : ∀ tx ∈ txs, strTrim tx.«from» ≠ "" ∧ strTrim tx.«to» ≠ "") :
    (Block.new index txs ph poh now).is_valid = .ok () := by
  have hne : txs.isEmpty = false := by
    cases txs with
    | nil => exact absurd rfl h1
    | cons a l => rfl
  have hany : txs.any (fun tx => strTrim tx.«from» == "" || strTrim tx.«to» == "")
      = false := by
    rw [List.any_eq_false]
    intro tx htx
    rcases h2 tx htx with ⟨hf, ht⟩
    simp [hf, ht]
  unfold Block.is_valid
  rw [if_neg (fun hc => hc (Block.new_hash_eq index txs ph poh now)),
    if_neg (by rw [Block.new_transactions, hne]; exact fun hc => Bool.noConfusion hc),
    if_neg (by rw [Block.new_transactions, hany]; exact fun hc => Bool.noConfusion hc)]

/-- One step of the `is_chain_valid` loop succeeds iff the link check of
the head succeeds and the rest of the walk succeeds. -/
theorem chain_walk_cons_ok (p b : Block) (l : List Block) :
    Blockchain.chain_walk p (b :: l) = .ok () ↔
      (Blockchain.link_check p b = .ok () ∧ Blockchain.chain_walk b l = .ok ()) := by
  have hstep : Blockchain.chain_walk p (b :: l)
      = (match Blockchain.link_check p b with
         | .error e => .error e
         | .ok _ => Blockchain.chain_walk b l) := rfl
  rw [hstep]
  cases h : Blockchain.link_check p b <;> simp [h]

/-- `is_chain_valid` on a non-empty chain: validate the head, then walk
the tail. -/
theorem is_chain_valid_cons (bc : Blockchain) (first : Block) (rest : List Block)
    (hch : bc.chain = first :: rest) :
    bc.is_chain_valid = (match first.is_valid with
      | .error e => .error e
      | .ok _ => Blockchain.chain_walk first rest) := by
  unfold Blockchain.is_chain_valid
  rw [hch]

/-- Extending a successful walk by one block that links to the walk's
last element keeps the walk successful. -/
theorem chain_walk_append (l : List Block) : ∀ (p b : Block),
    Blockchain.chain_walk p l = .ok () →
    Blockchain.link_check ((p :: l).getLast (List.cons_ne_nil p l)) b = .ok () →
    Blockchain.chain_walk p (l ++ [b]) = .ok () := by
  induction l with
  | nil =>
    intro p b _ hl
    rw [List.nil_append, chain_walk_cons_ok]
    exact ⟨hl, rfl⟩
  | cons q rest ih =>
    intro p b hw hl
    rw [List.cons_append, chain_walk_cons_ok]
    rw [chain_walk_cons_ok] at hw
    refine ⟨hw.1, ih q b hw.2 ?_⟩
    rwa [List.getLast_cons (List.cons_ne_nil q rest)] at hl

/-- C4: on any chain passing `is_chain_valid`, appending any non-empty
batch whose trimmed addresses are non-empty succeeds; the appended block
has the previous last block's index plus one and its hash as
`previous_hash`, and the extended chain still passes `is_chain_valid`. -/
theorem add_block_extends_valid_chain (bc : Blockchain) (now : ℤ)
    (txs : List Transaction)
    (hvalid : bc.is_chain_valid = .ok ()) (hne : txs ≠ [])
    (haddr : ∀ tx ∈ txs, strTrim tx.«from» ≠ "" ∧ strTrim tx.«to» ≠ "") :
    ∃ prev newb : Block,
      bc.chain.getLast? = some prev ∧
      (bc.add_block now txs).1 = .ok () ∧
      (bc.add_block now txs).2.chain = bc.chain ++ [newb] ∧
      (bc.add_block now txs).2.chain.getLast? = some newb ∧
      newb.index = prev.index + 1 ∧
      newb.previous_hash = prev.hash ∧
      (bc.add_block now txs).2.is_chain_valid = .ok () := by
  have htxe : txs.isEmpty = false := by
    cases txs with
    | nil => exact absurd rfl hne
    | cons a l => rfl
  cases hch : bc.chain with
  | nil =>
    unfold Blockchain.is_chain_valid at hvalid
    rw [hch] at hvalid
    exact Except.noConfusion hvalid
  | cons first rest =>
    rw [is_chain_valid_cons bc first rest hch] at hvalid
    cases hf : first.is_valid with
    | error e => rw [hf] at hvalid; exact Except.noConfusion hvalid
    | ok u =>
      rw [hf] at hvalid
      set prev := (first :: rest).getLast (List.cons_ne_nil first rest) with hprev
      have hlast : bc.chain.getLast? = some prev := by
        rw [hch]; exact List.getLast?_eq_getLast _ _
      set newb := Block.new (prev.index + 1) txs prev.hash
        (bc.poh_recorder.record (Blockchain.batch_data txs)).1 now with hnewb
      have hbv : newb.is_valid = .ok () := Block.is_valid_new _ _ _ _ _ hne haddr
      have hlink : Blockchain.link_check prev newb = .ok () := by
        unfold Blockchain.link_check
        rw [hbv]
        rw [if_neg (fun hc => hc (Block.new_previous_hash _ _ _ _ _)),
          if_neg (fun hc => hc (Block.new_index _ _ _ _ _))]
      have hresult : bc.add_block now txs =
          (.ok (), { chain := bc.chain ++ [newb],
                     poh_recorder := (bc.poh_recorder.record
                       (Blockchain.batch_data txs)).2 }) := by
        unfold Blockchain.add_block
        rw [htxe, hlast]
        simp only [Bool.false_eq_true, if_false]
        rw [← hnewb, hbv]
      refine ⟨prev, newb, List.getLast?_eq_getLast _ _, by rw [hresult],
        by simp [hresult, hch], ?_, rfl, rfl, ?_⟩
      · rw [hresult]
        exact List.getLast?_concat _
      · rw [hresult]
        rw [is_chain_valid_cons _ first (rest ++ [newb]) (by rw [hch, List.cons_append]),
          hf]
        exact chain_walk_append rest first newb hvalid (by rwa [← hprev])

/-- Witness for C4: appending a concrete one-transaction batch to the
fresh genesis chain. -/
theorem add_block_extends_valid_chain_witness :
    (Blockchain.new 0).is_chain_valid = .ok () ∧
    ∃ prev newb : Block,
      (Blockchain.new 0).chain.getLast? = some prev ∧
      ((Blockchain.new 0).add_block 3 [exTx]).1 = .ok () ∧
      ((Blockchain.new 0).add_block 3 [exTx]).2.chain
        = (Blockchain.new 0).chain ++ [newb] ∧
      ((Blockchain.new 0).add_block 3 [exTx]).2.chain.getLast? = some newb ∧
      newb.index = prev.index + 1 ∧
      newb.previous_hash = prev.hash ∧
      ((Blockchain.new 0).add_block 3 [exTx]).2.is_chain_valid = .ok () :=
  ⟨by decide,
    add_block_extends_valid_chain (Blockchain.new 0) 3 [exTx] (by decide) (by decide)
      (by decide)⟩

/-- A miner whose difficulty-adjustment interval is 1. -/
def exMiner1 : Miner :=
  { config := { difficulty := 4, block_reward := 50, max_block_time := 600,
                difficulty_adjustment_interval := 1, target_block_time := 60 },
    wallet := exWallet }

/-- A miner whose difficulty-adjustment interval is 2. -/
def exMiner2 : Miner :=
  { config := { difficulty := 4, block_reward := 50, max_block_time := 600,
                difficulty_adjustment_interval := 2, target_block_time := 60 },
    wallet := exWallet }

/-- Counterexample to C5: with `difficulty_adjustment_interval = 1` and
one block, at least `interval` blocks exist and the claim's ratio over
the one-block window is `0 / 60 < 0.5`, so the claim predicts
`current_difficulty + 1`; the code returns `current_difficulty`
unchanged, because its window arithmetic requires at least two blocks in
the window. -/
theorem calculate_difficulty_adjustment_interval_one :
    exMiner1.config.difficulty_adjustment_interval ≤ ([Block.genesis 0] : List Block).length ∧
    (((Block.genesis 0).timestamp - (Block.genesis 0).timestamp : ℤ) : ℚ) /
      ((exMiner1.config.target_block_time *
        exMiner1.config.difficulty_adjustment_interval : Nat) : ℚ) < 1/2 ∧
    exMiner1.calculate_difficulty_adjustment [Block.genesis 0] 5 = 5 ∧
    exMiner1.calculate_difficulty_adjustment [Block.genesis 0] 5 ≠ 5 + 1 := by
  refine ⟨by decide, ?_, by decide, by decide⟩
  norm_num [Block.genesis, exMiner1]

/-- C5 (amended): the difficulty is returned unchanged when fewer than
`difficulty_adjustment_interval` blocks exist, and also whenever the
interval is less than 2 (the window arithmetic needs two blocks);
otherwise the most recent interval-worth window decides: with ratio =
(last timestamp − first timestamp) / (target_block_time · interval),
ratio < 0.5 yields `current + 1`, ratio > 2.0 yields `current − 1`
floored at 1, anything else leaves the difficulty unchanged (for a
positive `target_block_time`, where the rational ratio model is
faithful). -/
theorem calculate_difficulty_adjustment_characterization (m : Miner)
    (blocks : List Block) (cur : Nat) :
    (blocks.length < m.config.difficulty_adjustment_interval →
      m.calculate_difficulty_adjustment blocks cur = cur) ∧
    (m.config.difficulty_adjustment_interval < 2 →
      m.calculate_difficulty_adjustment blocks cur = cur) ∧
    (∀ (first : Block) (rest : List Block),
      m.config.difficulty_adjustment_interval ≤ blocks.length →
      0 < m.config.target_block_time →
      blocks.drop (blocks.length - m.config.difficulty_adjustment_interval)
        = first :: rest →
      rest ≠ [] →
      m.calculate_difficulty_adjustment blocks cur =
        (let last := (first :: rest).getLast (List.cons_ne_nil first rest)
         let ratio : ℚ := ((last.timestamp - first.timestamp : ℤ) : ℚ) /
           ((m.config.target_block_time *
             m.config.difficulty_adjustment_interval : Nat) : ℚ)
         if ratio < 1/2 then cur + 1
         else if ratio > 2 then (if cur > 1 then cur - 1 else 1) else cur)) := by
  refine ⟨?_, ?_, ?_⟩
  · intro h
    unfold Miner.calculate_difficulty_adjustment
    rw [if_pos h]
  · intro h
    unfold Miner.calculate_difficulty_adjustment
    by_cases hlen : blocks.length < m.config.difficulty_adjustment_interval
    · rw [if_pos hlen]
    · rw [if_neg hlen]
      have hdl : (blocks.drop
          (blocks.length - m.config.difficulty_adjustment_interval)).length
          = m.config.difficulty_adjustment_interval := by
        rw [List.length_drop]
        omega
      cases hd : blocks.drop
          (blocks.length - m.config.difficulty_adjustment_interval) with
      | nil => rfl
      | cons b rest =>
        rw [hd] at hdl
        simp only [List.length_cons] at hdl
        have hrest : rest = [] := by
          apply List.eq_nil_of_length_eq_zero
          omega
        subst hrest
        rfl
  · intro first rest hlen _ hdrop hrest
    cases rest with
    | nil => exact absurd rfl hrest
    | cons a l =>
      unfold Miner.calculate_difficulty_adjustment
      rw [if_neg (not_lt.mpr hlen), hdrop]
      rfl

/-- Witness for C5's amended characterization: the too-few-blocks branch
and the interval-below-2 branch at concrete inputs. -/
theorem calculate_difficulty_adjustment_characterization_witness :
    ([] : List Block).length < exMiner2.config.difficulty_adjustment_interval ∧
    exMiner2.calculate_difficulty_adjustment [] 5 = 5 ∧
    exMiner1.config.difficulty_adjustment_interval < 2 ∧
    exMiner1.calculate_difficulty_adjustment [Block.genesis 7] 6 = 6 :=
  ⟨by decide,
    (calculate_difficulty_adjustment_characterization exMiner2 [] 5).1 (by decide),
    by decide,
    (calculate_difficulty_adjustment_characterization exMiner1 [Block.genesis 7] 6).2.1
      (by decide)⟩

/-- Any result the mining loop returns is either a success or the
timeout error — no other outcome exists in the loop. -/
theorem mineLoop_result_shape (hexRender : HVal → String) (target : String)
    (mbt : Nat) (elapsed : Nat → Nat) (b : Block) : ∀ (fuel nonce : Nat)
    (r : Except BlockchainError MiningResult),
    Miner.mineLoop hexRender target mbt elapsed b fuel nonce = some r →
    (∃ mr, r = .ok mr) ∨ r = .error (.invalidBlock "Mining timeout exceeded") := by
  intro fuel
  induction fuel with
  | zero =>
    intro nonce r h
    exact absurd h (by simp [Miner.mineLoop])
  | succ f ih =>
    intro nonce r h
    simp only [Miner.mineLoop] at h
    by_cases h1 : Miner.hash_meets_difficulty hexRender
        (Block.calculate_hash { b with nonce := nonce }) target = true
    · rw [if_pos h1] at h
      exact Or.inl ⟨_, (Option.some.inj h).symm⟩
    · rw [if_neg h1] at h
      by_cases h2 : elapsed nonce > mbt
      · rw [if_pos h2] at h
        exact Or.inr (Option.some.inj h).symm
      · rw [if_neg h2] at h
        exact ih (nonce + 1) r h

/-- Once some iteration's elapsed-time observation exceeds the cap, the
loop returns within that many iterations: the nonce search cannot run
forever under an unbounded clock. -/
theorem mineLoop_terminates (hexRender : HVal → String) (target : String)
    (mbt : Nat) (elapsed : Nat → Nat) (b : Block) : ∀ (k nonce : Nat),
    mbt < elapsed (nonce + k) →
    ∃ r, Miner.mineLoop hexRender target mbt elapsed b (k + 1) nonce = some r := by
  intro k
  induction k with
  | zero =>
    intro nonce hcl
    rw [Nat.add_zero] at hcl
    simp only [Miner.mineLoop]
    by_cases h1 : Miner.hash_meets_difficulty hexRender
        (Block.calculate_hash { b with nonce := nonce }) target = true
    · rw [if_pos h1]
      exact ⟨_, rfl⟩
    · rw [if_neg h1, if_pos hcl]
      exact ⟨_, rfl⟩
  | succ kk ih =>
    intro nonce hcl
    simp only [Miner.mineLoop]
    by_cases h1 : Miner.hash_meets_difficulty hexRender
        (Block.calculate_hash { b with nonce := nonce }) target = true
    · rw [if_pos h1]
      exact ⟨_, rfl⟩
    · rw [if_neg h1]
      by_cases h2 : elapsed nonce > mbt
      · rw [if_pos h2]
        exact ⟨_, rfl⟩
      · rw [if_neg h2]
        exact ih (nonce + 1) (by rwa [show nonce + 1 + kk = nonce + (kk + 1) by omega])

/-- A successful loop result carries the searched block: the difficulty
field is the one `Block::new` stored, the stored hash is the recomputed
content hash at the winning nonce, and that hash meets the target. -/
theorem mineLoop_ok_block (hexRender : HVal → String) (target : String)
    (mbt : Nat) (elapsed : Nat → Nat) (b : Block) : ∀ (fuel nonce : Nat)
    (mr : MiningResult),
    Miner.mineLoop hexRender target mbt elapsed b fuel nonce = some (.ok mr) →
    mr.block.difficulty = b.difficulty ∧
    mr.block.hash = Block.calculate_hash { b with nonce := mr.nonce } ∧
    Miner.hash_meets_difficulty hexRender mr.block.hash target = true := by
  intro fuel
  induction fuel with
  | zero =>
    intro nonce mr h
    exact absurd h (by simp [Miner.mineLoop])
  | succ f ih =>
    intro nonce mr h
    simp only [Miner.mineLoop] at h
    by_cases h1 : Miner.hash_meets_difficulty hexRender
        (Block.calculate_hash { b with nonce := nonce }) target = true
    · rw [if_pos h1] at h
      have hmr' := Except.ok.inj (Option.some.inj h)
      subst hmr'
      exact ⟨rfl, rfl, h1⟩
    · rw [if_neg h1] at h
      by_cases h2 : elapsed nonce > mbt
      · rw [if_pos h2] at h
        exact Except.noConfusion (Option.some.inj h)
      · rw [if_neg h2] at h
        exact ih (nonce + 1) mr h

/-- C8: under a clock whose elapsed-time observations eventually exceed
`max_block_time` (true of any monotone unbounded wall clock, however
small the cap), `mine_block` terminates: for some fuel the embedded loop
returns, and the outcome is either a `MiningResult` or the
`InvalidBlock "Mining timeout exceeded"` error. -/
theorem mine_block_terminates (hexRender : HVal → String) (elapsed : Nat → Nat)
    (m : Miner) (txId : String) (now : ℤ) (index : Nat) (txs : List Transaction)
    (ph poh : HVal)
    (hclock : ∃ n, m.config.max_block_time < elapsed n)
    (hreward : 0 ≤ m.config.block_reward)
    (haddr : strTrim m.wallet.address ≠ "") :
    ∃ fuel r,
      Miner.mine_block hexRender elapsed m fuel txId now index txs ph poh = some r ∧
      ((∃ mr, r = .ok mr) ∨ r = .error (.invalidBlock "Mining timeout exceeded")) := by
  obtain ⟨n, hn⟩ := hclock
  have hmt : strTrim "miner" ≠ "" := by decide
  have hcb : Transaction.new_signed txId now "miner" m.wallet.address
      m.config.block_reward (some "Block reward")
      (m.wallet.sign_transaction "coinbase") m.wallet.keypair.public_key
      = .ok { id := txId, «from» := "miner", «to» := m.wallet.address,
              amount := m.config.block_reward, data := some "Block reward",
              timestamp := now,
              signature := some (m.wallet.sign_transaction "coinbase"),
              from_public_key := some m.wallet.keypair.public_key } := by
    unfold Transaction.new_signed Transaction.new
    rw [if_neg hmt, if_neg haddr, if_neg (not_lt.mpr hreward)]
    rfl
  obtain ⟨r, hr⟩ := mineLoop_terminates hexRender
    (Miner.calculate_target m.config.difficulty) m.config.max_block_time elapsed
    (Block.new index
      ({ id := txId, «from» := "miner", «to» := m.wallet.address,
         amount := m.config.block_reward, data := some "Block reward",
         timestamp := now,
         signature := some (m.wallet.sign_transaction "coinbase"),
         from_public_key := some m.wallet.keypair.public_key } :: txs) ph poh now)
    n 0 (by simpa using hn)
  refine ⟨n + 1, r, ?_, ?_⟩
  · unfold Miner.mine_block
    rw [hcb]
    exact hr
  · exact mineLoop_result_shape _ _ _ _ _ _ _ _ hr

/-- A hash rendering that makes every digest meet difficulty 4. -/
def hex0 : HVal → String := fun _ => "0000"

/-- A hash rendering that never meets a positive difficulty. -/
def hexF : HVal → String := fun _ => "ffff"

/-- A clock observation sequence that never reaches the cap. -/
def el0 : Nat → Nat := fun _ => 0

/-- A clock observation sequence already beyond the default cap. -/
def el1 : Nat → Nat := fun n => n + 1000

/-- Witness for C8: with a never-matching hash rendering and a clock
already past the cap, the concrete call returns the timeout error. -/
theorem mine_block_terminates_witness :
    (∃ n, exMiner2.config.max_block_time < el1 n) ∧
    0 ≤ exMiner2.config.block_reward ∧
    strTrim exMiner2.wallet.address ≠ "" ∧
    ∃ fuel r,
      Miner.mine_block hexF el1 exMiner2 fuel "cb1" 0 1 [] (HVal.str "p")
        (HVal.str "q") = some r ∧
      ((∃ mr, r = .ok mr) ∨ r = .error (.invalidBlock "Mining timeout exceeded")) :=
  ⟨⟨0, by decide⟩, by decide, by decide,
    mine_block_terminates hexF el1 exMiner2 "cb1" 0 1 [] (HVal.str "p") (HVal.str "q")
      ⟨0, by decide⟩ (by decide) (by decide)⟩

/-- C9: every successful `mine_block` outcome stores difficulty 4 (the
`Block::new` default) in the block, while the proof-of-work target the
search enforced is derived from the configured difficulty — the stored
hash meets `calculate_target(config.difficulty)`; whenever the
configured difficulty differs from 4 the recorded difficulty disagrees
with the enforced one. -/
theorem mine_block_difficulty_mismatch (hexRender : HVal → String)
    (elapsed : Nat → Nat) (m : Miner) (fuel : Nat) (txId : String) (now : ℤ)
    (index : Nat) (txs : List Transaction) (ph poh : HVal) (mr : MiningResult)
    (hok : Miner.mine_block hexRender elapsed m fuel txId now index txs ph poh
      = some (.ok mr)) :
    mr.block.difficulty = 4 ∧
    Miner.hash_meets_difficulty hexRender mr.block.hash
      (Miner.calculate_target m.config.difficulty) = true ∧
    (m.config.difficulty ≠ 4 → mr.block.difficulty ≠ m.config.difficulty) := by
  unfold Miner.mine_block at hok
  cases hcb : Transaction.new_signed txId now "miner" m.wallet.address
      m.config.block_reward (some "Block reward")
      (m.wallet.sign_transaction "coinbase") m.wallet.keypair.public_key with
  | error e =>
    rw [hcb] at hok
    exact Except.noConfusion (Option.some.inj hok)
  | ok cb =>
    rw [hcb] at hok
    have h := mineLoop_ok_block hexRender (Miner.calculate_target m.config.difficulty)
      m.config.max_block_time elapsed (Block.new index (cb :: txs) ph poh now)
      fuel 0 mr hok
    have hd : mr.block.difficulty = 4 := h.1
    exact ⟨hd, h.2.2, fun hne => by rw [hd]; exact fun hc => hne hc.symm⟩

/-- A miner with the default configuration (difficulty 4). -/
def exMiner4 : Miner :=
  { config := MiningConfig.default, wallet := exWallet }

/-- The concrete outcome of a successful mining call under `hex0`. -/
def exMineResult : MiningResult :=
  match Miner.mine_block hex0 el0 exMiner4 1 "cb1" 0 1 [] (HVal.str "p")
      (HVal.str "q") with
  | some (.ok mr) => mr
  | _ => { block := Block.genesis 0, mining_time := 0, hash_rate := 0, nonce := 0 }

/-- Witness for C9: the concrete successful call stores difficulty 4 and
its hash meets the configured target. -/
theorem mine_block_difficulty_mismatch_witness :
    Miner.mine_block hex0 el0 exMiner4 1 "cb1" 0 1 [] (HVal.str "p") (HVal.str "q")
      = some (.ok exMineResult) ∧
    exMineResult.block.difficulty = 4 :=
  ⟨by decide,
    (mine_block_difficulty_mismatch hex0 el0 exMiner4 1 "cb1" 0 1 []
      (HVal.str "p") (HVal.str "q") exMineResult (by decide)).1⟩

/-- If the hash at the starting nonce meets the target, the loop
returns success at that very nonce, whatever the cap and the clock. -/
theorem mineLoop_first_hit (hexRender : HVal → String) (target : String)
    (mbt : Nat) (elapsed : Nat → Nat) (b : Block) (f nonce : Nat)
    (h1 : Miner.hash_meets_difficulty hexRender
      (Block.calculate_hash { b with nonce := nonce }) target = true) :
    ∃ mr, Miner.mineLoop hexRender target mbt elapsed b (f + 1) nonce
        = some (.ok mr) ∧ mr.nonce = nonce := by
  simp only [Miner.mineLoop]
  rw [if_pos h1]
  exact ⟨_, rfl, rfl⟩

/-- If the loop returned the timeout error, the hash at its starting
nonce did not meet the target (the success test runs first). -/
theorem mineLoop_timeout_first_miss (hexRender : HVal → String) (target : String)
    (mbt : Nat) (elapsed : Nat → Nat) (b : Block) (fuel nonce : Nat)
    (h : Miner.mineLoop hexRender target mbt elapsed b fuel nonce
      = some (.error (.invalidBlock "Mining timeout exceeded"))) :
    Miner.hash_meets_difficulty hexRender
      (Block.calculate_hash { b with nonce := nonce }) target = false := by
  cases fuel with
  | zero => exact absurd h (by simp [Miner.mineLoop])
  | succ f =>
    simp only [Miner.mineLoop] at h
    by_cases h1 : Miner.hash_meets_difficulty hexRender
        (Block.calculate_hash { b with nonce := nonce }) target = true
    · rw [if_pos h1] at h
      exact Except.noConfusion (Option.some.inj h)
    · simpa using h1

/-- C10: `mine_block` tests the nonce-0 hash before any timeout check:
whenever the candidate block's hash at nonce 0 meets the target, the
call succeeds with nonce 0 for every `max_block_time` (including zero)
and every clock; and if the call returns the timeout error, the nonce-0
hash necessarily failed the target. -/
theorem mine_block_nonce0 (hexRender : HVal → String) (elapsed : Nat → Nat)
    (m : Miner) (txId : String) (now : ℤ) (index : Nat) (txs : List Transaction)
    (ph poh : HVal) (cb : Transaction)
    (hcb : Transaction.new_signed txId now "miner" m.wallet.address
      m.config.block_reward (some "Block reward")
      (m.wallet.sign_transaction "coinbase") m.wallet.keypair.public_key = .ok cb) :
    (Miner.hash_meets_difficulty hexRender
        (Block.calculate_hash (Block.new index (cb :: txs) ph poh now))
        (Miner.calculate_target m.config.difficulty) = true →
      ∀ fuel, 0 < fuel → ∃ mr,
        Miner.mine_block hexRender elapsed m fuel txId now index txs ph poh
          = some (.ok mr) ∧ mr.nonce = 0) ∧
    (∀ fuel,
      Miner.mine_block hexRender elapsed m fuel txId now index txs ph poh
        = some (.error (.invalidBlock "Mining timeout exceeded")) →
      Miner.hash_meets_difficulty hexRender
        (Block.calculate_hash (Block.new index (cb :: txs) ph poh now))
        (Miner.calculate_target m.config.difficulty) = false) := by
  constructor
  · intro hmeets fuel hfuel
    cases fuel with
    | zero => omega
    | succ f =>
      obtain ⟨mr, hmr, hn0⟩ := mineLoop_first_hit hexRender
        (Miner.calculate_target m.config.difficulty) m.config.max_block_time elapsed
        (Block.new index (cb :: txs) ph poh now) f 0 hmeets
      refine ⟨mr, ?_, hn0⟩
      unfold Miner.mine_block
      rw [hcb]
      exact hmr
  · intro fuel htimeout
    have ht : Miner.mineLoop hexRender (Miner.calculate_target m.config.difficulty)
        m.config.max_block_time elapsed (Block.new index (cb :: txs) ph poh now)
        fuel 0 = some (.error (.invalidBlock "Mining timeout exceeded")) := by
      unfold Miner.mine_block at htimeout
      rw [hcb] at htimeout
      exact htimeout
    exact mineLoop_timeout_first_miss hexRender
      (Miner.calculate_target m.config.difficulty) m.config.max_block_time elapsed
      (Block.new index (cb :: txs) ph poh now) fuel 0 ht

/-- A default-configuration miner whose `max_block_time` is zero. -/
def exMiner0 : Miner :=
  { config := { MiningConfig.default with max_block_time := 0 }, wallet := exWallet }

/-- Witness for C10: with a zero `max_block_time`, the concrete call
still succeeds at nonce 0 because the nonce-0 hash meets the target. -/
theorem mine_block_nonce0_witness :
    Transaction.new_signed "cb1" 0 "miner" exMiner0.wallet.address
      exMiner0.config.block_reward (some "Block reward")
      (exMiner0.wallet.sign_transaction "coinbase")
      exMiner0.wallet.keypair.public_key = .ok exCoinbase ∧
    exMiner0.config.max_block_time = 0 ∧
    Miner.hash_meets_difficulty hex0
      (Block.calculate_hash (Block.new 1 (exCoinbase :: []) (HVal.str "p")
        (HVal.str "q") 0))
      (Miner.calculate_target exMiner0.config.difficulty) = true ∧
    ∃ mr, Miner.mine_block hex0 el0 exMiner0 1 "cb1" 0 1 [] (HVal.str "p")
        (HVal.str "q") = some (.ok mr) ∧ mr.nonce = 0 :=
  ⟨by decide, rfl, by decide,
    (mine_block_nonce0 hex0 el0 exMiner0 "cb1" 0 1 [] (HVal.str "p") (HVal.str "q")
      exCoinbase (by decide)).1 (by decide) 1 (by decide)⟩

/-- The contribution of one transaction to `get_balance(address)` as the
code computes it: `amount` credited when `to` matches, debited when
`from` matches unless `from` is the `"genesis"` sentinel. -/
def balance_contrib (address : String) (t : Transaction) : ℚ :=
  (if t.«to» = address then t.amount else 0) -
    (if t.«from» = address ∧ t.«from» ≠ "genesis" then t.amount else 0)

/-- The per-transaction contribution as claim C2 states it: both the
`"genesis"` and the `"miner"` sentinels exempt from deduction. -/
def claimed_balance_contrib (address : String) (t : Transaction) : ℚ :=
  (if t.«to» = address then t.amount else 0) -
    (if t.«from» = address ∧ t.«from» ≠ "genesis" ∧ t.«from» ≠ "miner" then t.amount
     else 0)

/-- A coinbase-shaped transaction (`from = "miner"`). -/
def cbTx : Transaction :=
  { id := "cb", «from» := "miner", «to» := "alice", amount := 50,
    data := some "Block reward", timestamp := 1,
    signature := none, from_public_key := none }

/-- Counterexample to C2: on the chain obtained by appending one
coinbase-shaped transaction to a fresh chain, `get_balance("miner")` is
`-50`, not the `0` the claim's miner-exemption predicts — the code
exempts only `"genesis"` from deduction. -/
theorem get_balance_miner_deducted :
    (Blockchain.add_block (Blockchain.new 0) 1 [cbTx]).1 = .ok () ∧
    Blockchain.get_balance (Blockchain.add_block (Blockchain.new 0) 1 [cbTx]).2 "miner"
      = -50 ∧
    ((((Blockchain.add_block (Blockchain.new 0) 1 [cbTx]).2).chain.flatMap
        Block.transactions).map (claimed_balance_contrib "miner")).sum = 0 := by
  refine ⟨by decide, ?_, ?_⟩ <;>
    simp [Blockchain.add_block, Blockchain.new, Blockchain.get_balance,
      Blockchain.batch_data, PohRecorder.record, PohRecorder.new,
      PohRecorder.with_iterations, Block.genesis, Block.new, Block.is_valid,
      Block.calculate_hash, Block.transaction_data, Transaction.genesis_transaction,
      Transaction.serialize, Transaction.optSig, Transaction.optKey, Transaction.optStr,
      strTrim, cbTx, claimed_balance_contrib]

/-- C2 (amended): `get_balance(address)` equals the sum over all
transactions in chain order of the credited/debited amounts, where only
the `"genesis"` sentinel is exempt from deduction — amounts sent from
`"miner"` are deducted from the `"miner"` balance like any other
sender's. -/
theorem get_balance_replays_chain (bc : Blockchain) (address : String) :
    bc.get_balance address =
      ((bc.chain.flatMap Block.transactions).map (balance_contrib address)).sum := by
  have htx : ∀ (txs : List Transaction) (acc : ℚ),
      txs.foldl (fun balance transaction =>
        let balance :=
          if transaction.«to» == address then balance + transaction.amount else balance
        if transaction.«from» == address && transaction.«from» != "genesis" then
          balance - transaction.amount
        else balance) acc
        = acc + (txs.map (balance_contrib address)).sum := by
    intro txs
    induction txs with
    | nil => intro acc; simp
    | cons t rest ih =>
      intro acc
      simp only [List.foldl_cons, List.map_cons, List.sum_cons]
      rw [ih]
      simp only [balance_contrib, beq_iff_eq, Bool.and_eq_true, bne_iff_ne, ne_eq]
      split_ifs <;> ring
  have hblocks : ∀ (blocks : List Block) (acc : ℚ),
      blocks.foldl (fun balance block =>
        block.transactions.foldl (fun balance transaction =>
          let balance :=
            if transaction.«to» == address then balance + transaction.amount else balance
          if transaction.«from» == address && transaction.«from» != "genesis" then
            balance - transaction.amount
          else balance) balance) acc
        = acc + ((blocks.flatMap Block.transactions).map (balance_contrib address)).sum := by
    intro blocks
    induction blocks with
    | nil => intro acc; simp
    | cons b rest ih =>
      intro acc
      rw [List.foldl_cons, htx, ih]
      simp [add_assoc]
  simpa [Blockchain.get_balance] using hblocks bc.chain 0

end NChain
